import Mathlib

namespace Futhorc

/-! Shallow embedding of the futhorc transliterator (src/rust/src/lib.rs and
src/rust/src/futhorc.rs).  Strings are modelled as `List Char`, the Rust
`u32` bitmasks as `Nat` (all set bits lie below 32), `HashMap`s as
association lists, and Rust panics as `Option.none`. -/

/-- The apostrophe character (U+0027). -/
def apos : Char := Char.ofNat 39

/-- Unicode white-space predicate matching Rust char::is_whitespace. -/
def rust_is_whitespace (c : Char) : Bool :=
  decide ((9 ≤ c.toNat ∧ c.toNat ≤ 13) ∨ c.toNat = 32 ∨ c.toNat = 133 ∨ c.toNat = 160 ∨
    c.toNat = 5760 ∨ (8192 ≤ c.toNat ∧ c.toNat ≤ 8202) ∨ c.toNat = 8232 ∨ c.toNat = 8233 ∨
    c.toNat = 8239 ∨ c.toNat = 8287 ∨ c.toNat = 12288)

/-- ASCII white-space predicate matching Rust char::is_ascii_whitespace. -/
def ascii_ws (c : Char) : Bool :=
  decide (c.toNat = 32 ∨ c.toNat = 9 ∨ c.toNat = 10 ∨ c.toNat = 12 ∨ c.toNat = 13)

/-- `remove_stress_markers` from lib.rs: drops the two IPA stress marks. -/
def remove_stress_markers (s : List Char) : List Char :=
  s.filter (fun c => !(c == 'ˈ' || c == 'ˌ'))

/-- One entry of the collapsed key (`collapse_key` body): /f/,/v/ collapse to
sentinel 0, /s/,/S/,/z/ to sentinel 1, any other symbol to its code point
truncated to 16 bits (the Rust `ch as u16`). -/
def collapseChar (c : Char) : Nat :=
  if c = 'f' ∨ c = 'v' then 0
  else if c = 's' ∨ c = 'S' ∨ c = 'z' then 1
  else c.toNat % 65536

/-- `collapse_key` from lib.rs. -/
def collapse_key (seq : List Char) : List Nat :=
  seq.map collapseChar

/-- The ambiguity table (`AmbiguityMap`): collapsed key to ambiguous positions. -/
abbrev AmbiguityMap := List (List Nat × List Nat)

/-- Step 1 of `disambiguate`: replace F, V, S, Z with lowercase equivalents. -/
def normFVSZ (c : Char) : Char :=
  if c = 'F' then 'f'
  else if c = 'V' then 'v'
  else if c = 'S' then 's'
  else if c = 'Z' then 'z'
  else c

/-- One iteration of step 2 of `disambiguate`: if `idx` is in bounds, an /f/
there becomes F and an /s/ becomes S; other characters are left alone. -/
def markStep (cs : List Char) (idx : Nat) : List Char :=
  if idx < cs.length then
    match cs.get? idx with
    | some 'f' => cs.set idx 'F'
    | some 's' => cs.set idx 'S'
    | _ => cs
  else cs

/-- Step 2 of `disambiguate`: mark every listed ambiguous position. -/
def markAmbiguous (cs : List Char) (ambs : List Nat) : List Char :=
  ambs.foldl markStep cs

/-- Step 3 of `disambiguate`: every remaining /f/ becomes /v/, /s/ becomes /z/. -/
def voiceChar (c : Char) : Char :=
  if c = 'f' then 'v' else if c = 's' then 'z' else c

/-- Step 4 of `disambiguate`: F and S return to their lowercase equivalents. -/
def unmarkChar (c : Char) : Char :=
  if c = 'F' then 'f' else if c = 'S' then 's' else c

/-- `disambiguate` from lib.rs. -/
def disambiguate (ipa : List Char) (ambiguities : AmbiguityMap) : List Char :=
  let cs := (remove_stress_markers ipa).map normFVSZ
  let cs2 :=
    match List.lookup (collapse_key cs) ambiguities with
    | some ambs => markAmbiguous cs ambs
    | none => cs
  (cs2.map voiceChar).map unmarkChar

/-- The stress-stripped, case-normalized form of a phonetic string: the string
on which `disambiguate` does its per-position work. -/
def normalizedOf (ipa : List Char) : List Char :=
  (remove_stress_markers ipa).map normFVSZ

/-- The ambiguous positions the table flags for a phonetic string's shape. -/
def flaggedOf (ipa : List Char) (ambiguities : AmbiguityMap) : List Nat :=
  (List.lookup (collapse_key (normalizedOf ipa)) ambiguities).getD []

/-- Per-symbol glyph table of `translate_to_runic` (pass 2 of the encoder). -/
def runeOf : Char → List Char
  | 'X' => [' ']
  | ' ' => ['᛫']
  | 'a' => ['ᚪ']
  | 'ɑ' | 'ɔ' => ['ᛟ']
  | 'æ' => ['ᚫ']
  | 'ɛ' => ['ᛖ']
  | 'ɪ' | 'I' => ['ᛁ']
  | 'i' => ['ᛁ', 'ᛁ']
  | 'ʊ' | 'u' => ['ᚣ']
  | 'ə' | 'ʌ' | 'ɜ' => ['ᚢ']
  | 'p' | 'P' => ['ᛈ']
  | 'b' => ['ᛒ']
  | 't' | 'T' => ['ᛏ']
  | 'd' | 'D' => ['ᛞ']
  | 'k' | 'K' => ['ᚳ']
  | 'g' => ['ᚷ']
  | 'f' | 'F' => ['ᚠ', 'ᚠ']
  | 'v' => ['ᚠ']
  | 'θ' | 'ð' => ['ᚦ']
  | 's' => ['ᛋ', 'ᛋ']
  | 'z' => ['ᛋ']
  | 'ʃ' | 'ʒ' => ['ᛋ', 'ᚻ']
  | 'h' => ['ᚻ']
  | 'm' | 'M' => ['ᛗ']
  | 'n' | 'N' => ['ᚾ']
  | 'ŋ' => ['ᛝ']
  | 'j' => ['ᛄ']
  | 'w' => ['ᚹ']
  | 'ɹ' | 'R' => ['ᚱ']
  | 'l' | 'L' => ['ᛚ']
  | 'ˣ' => ['ᛉ']
  | 'ʤ' => ['ᚷ', 'ᚻ']
  | 'ʧ' => ['ᚳ', 'ᚻ']
  | 'ɚ' => ['ᚢ', 'ᚱ']
  | c => [c]

/-- Concatenated per-symbol glyphs (the push_str loop of `translate_to_runic`). -/
def runesOf : List Char → List Char
  | [] => []
  | c :: rest => runeOf c ++ runesOf rest

/-- Rust `str::replace` restricted to a two-character pattern: every
non-overlapping occurrence of `a` then `b` becomes `r`, scanning left to
right and continuing after each replacement. -/
def replace2 (a b : Char) (r : List Char) : List Char → List Char
  | x :: y :: rest =>
    if x = a ∧ y = b then r ++ replace2 a b r rest
    else x :: replace2 a b r (y :: rest)
  | l => l

/-- `translate_to_runic` from lib.rs (pass 2 plus the two ligature passes). -/
def translate_to_runic (s : List Char) : List Char :=
  replace2 'ᚳ' 'ᚹ' ['ᛢ'] (replace2 'ᛋ' 'ᛏ' ['ᛥ'] (runesOf s))

/-- The ordered digraph/diphthong pair rules of `translate_to_runic_2`,
tried first-match-wins exactly as the Rust match arms are ordered. -/
def pairRule (a b : Char) : Option (List Char) :=
  if a = 'e' ∧ (b = 'ɪ' ∨ b = 'j') then some ['ᛠ']
  else if a = 'a' ∧ (b = 'ɪ' ∨ b = 'j') then some ['ᛡ']
  else if a = 'a' ∧ (b = 'ʊ' ∨ b = 'w') then some ['ᚪ', 'ᚹ']
  else if a = 'ɑ' ∧ b = 'ɹ' then some ['ᚪ', 'ᚱ']
  else if a = 'ɛ' ∧ b = 'ɹ' then some ['ᛠ', 'ᚱ']
  else if (a = 'ɪ' ∨ a = 'i') ∧ b = 'ɹ' then some ['ᛁ', 'ᛁ', 'ᚱ']
  else if a = 'o' ∧ (b = 'ʊ' ∨ b = 'w') then some ['ᚩ']
  else if a = 'ɔ' ∧ (b = 'ɪ' ∨ b = 'j') then some ['ᚩ', 'ᛁ']
  else if a = 'ɔ' ∧ b = 'ɹ' then some ['ᚩ', 'ᚱ']
  else if a = 't' ∧ b = 'ʃ' then some ['ᚳ', 'ᚻ']
  else if a = 'd' ∧ b = 'ʒ' then some ['ᚷ', 'ᚻ']
  else if a = 'ŋ' ∧ b = 'g' then some ['ᛝ']
  else if a = 's' ∧ b = 'S' then some ['ᛋ', 'ᛋ', 'ᛋ']
  else none

/-- The windows(2)/skip scan of `translate_to_runic_2`: a matched pair
consumes both symbols, otherwise one symbol is emitted verbatim; a final
unconsumed symbol is emitted verbatim at the end. -/
def runic2go : List Char → List Char
  | [] => []
  | [a] => [a]
  | a :: b :: rest =>
    match pairRule a b with
    | some out => out ++ runic2go rest
    | none => a :: runic2go (b :: rest)

/-- `translate_to_runic_2` from lib.rs.  On the empty string the Rust code
unwraps `vec.last()` on an empty vector, a panic, modelled as `none`. -/
def translate_to_runic_2 (l : List Char) : Option (List Char) :=
  if l = [] then none else some (runic2go l)

/-- Whether the scan of `translate_to_runic_2` consumes the final symbol as
the second element of a matched pair (the `skip` flag at loop exit). -/
def lastConsumed : List Char → Bool
  | [] => false
  | [_] => false
  | [a, b] => (pairRule a b).isSome
  | a :: b :: c :: rest =>
    match pairRule a b with
    | some _ => lastConsumed (c :: rest)
    | none => lastConsumed (b :: c :: rest)

/-! ### Lemmas about the disambiguation pass -/

/-- The effect of one marking step on the character at the marked position. -/
def markChar (c : Char) : Char :=
  if c = 'f' then 'F' else if c = 's' then 'S' else c

theorem markChar_markChar (c : Char) : markChar (markChar c) = markChar c := by
  unfold markChar
  split_ifs <;> simp_all

theorem markStep_length (cs : List Char) (idx : Nat) : (markStep cs idx).length = cs.length := by
  unfold markStep
  split
  · split <;> simp [List.length_set]
  · rfl

theorem markStep_getElem? (cs : List Char) (idx i : Nat) :
    (markStep cs idx)[i]? = if i = idx then cs[i]?.map markChar else cs[i]? := by
  unfold markStep
  split
  case isTrue hlen =>
    split
    case _ heq =>
      have heq' : cs[idx]? = some 'f' := by rw [← List.get?_eq_getElem?]; exact heq
      rw [List.getElem?_set]
      by_cases hi : i = idx
      · subst hi
        rw [if_pos rfl, if_pos hlen, if_pos rfl, heq']
        simp [markChar]
      · rw [if_neg (fun h => hi h.symm), if_neg hi]
    case _ heq =>
      have heq' : cs[idx]? = some 's' := by rw [← List.get?_eq_getElem?]; exact heq
      rw [List.getElem?_set]
      by_cases hi : i = idx
      · subst hi
        rw [if_pos rfl, if_pos hlen, if_pos rfl, heq']
        simp [markChar]
      · rw [if_neg (fun h => hi h.symm), if_neg hi]
    case _ hf hs =>
      by_cases hi : i = idx
      · subst hi
        rcases hc : cs[i]? with _ | c
        · simp
        · have hc' : cs.get? i = some c := by rw [List.get?_eq_getElem?]; exact hc
          have hcf : c ≠ 'f' := fun h => hf (by rw [hc', h])
          have hcs : c ≠ 's' := fun h => hs (by rw [hc', h])
          simp [markChar, hcf, hcs]
      · rw [if_neg hi]
  case isFalse hlen =>
    by_cases hi : i = idx
    · subst hi
      have hnone : cs[i]? = none := List.getElem?_eq_none (by omega)
      simp [hnone]
    · rw [if_neg hi]

theorem markAmbiguous_length (ambs : List Nat) (cs : List Char) :
    (markAmbiguous cs ambs).length = cs.length := by
  induction ambs generalizing cs with
  | nil => rfl
  | cons a rest ih =>
    show (markAmbiguous (markStep cs a) rest).length = cs.length
    rw [ih, markStep_length]

theorem markAmbiguous_getElem? (ambs : List Nat) (cs : List Char) (i : Nat) :
    (markAmbiguous cs ambs)[i]? =
      if i ∈ ambs then cs[i]?.map markChar else cs[i]? := by
  induction ambs generalizing cs with
  | nil => simp [markAmbiguous]
  | cons a rest ih =>
    show (markAmbiguous (markStep cs a) rest)[i]? = _
    rw [ih, markStep_getElem?]
    by_cases hi : i = a
    · subst hi
      by_cases hr : i ∈ rest
      · rw [if_pos hr, if_pos rfl, if_pos (by simp)]
        rcases hc : cs[i]? with _ | c <;> simp [hc, markChar_markChar]
      · rw [if_neg hr, if_pos rfl, if_pos (by simp)]
    · by_cases hr : i ∈ rest
      · rw [if_pos hr, if_neg hi, if_pos (by simp [hr])]
      · rw [if_neg hr, if_neg hi, if_neg (by simp [hi, hr])]

theorem markAmbiguous_filter (ambs : List Nat) (cs : List Char) :
    markAmbiguous cs ambs = markAmbiguous cs (ambs.filter (fun i => decide (i < cs.length))) := by
  induction ambs generalizing cs with
  | nil => rfl
  | cons a rest ih =>
    by_cases ha : a < cs.length
    · have hf : (a :: rest).filter (fun i => decide (i < cs.length)) =
        a :: rest.filter (fun i => decide (i < cs.length)) := by simp [ha]
      rw [hf]
      show markAmbiguous (markStep cs a) rest = markAmbiguous (markStep cs a) (rest.filter _)
      rw [ih (markStep cs a), markStep_length]
    · have hstep : markStep cs a = cs := by unfold markStep; rw [if_neg ha]
      have hf : (a :: rest).filter (fun i => decide (i < cs.length)) =
        rest.filter (fun i => decide (i < cs.length)) := by simp [ha]
      rw [hf]
      show markAmbiguous (markStep cs a) rest = _
      rw [hstep]
      exact ih cs

theorem disambiguate_eq (ipa : List Char) (amb : AmbiguityMap) :
    disambiguate ipa amb =
      ((match List.lookup (collapse_key (normalizedOf ipa)) amb with
        | some ambs => markAmbiguous (normalizedOf ipa) ambs
        | none => normalizedOf ipa).map voiceChar).map unmarkChar := rfl

theorem normFVSZ_not_marker (x : Char) : normFVSZ x ≠ 'F' ∧ normFVSZ x ≠ 'S' := by
  unfold normFVSZ
  split_ifs <;> simp_all

theorem net_voicing_marked (c : Char) (hF : c ≠ 'F') (hS : c ≠ 'S') :
    unmarkChar (voiceChar (markChar c)) =
      (if c = 'f' then 'f' else if c = 's' then 's' else c) := by
  by_cases hf : c = 'f'
  · subst hf; simp [markChar, voiceChar, unmarkChar]
  · by_cases hs : c = 's'
    · subst hs; simp [markChar, voiceChar, unmarkChar]
    · simp [markChar, voiceChar, unmarkChar, hf, hs, hF, hS]

theorem net_voicing_plain (c : Char) (hF : c ≠ 'F') (hS : c ≠ 'S') :
    unmarkChar (voiceChar c) =
      (if c = 'f' then 'v' else if c = 's' then 'z' else c) := by
  by_cases hf : c = 'f'
  · subst hf; simp [voiceChar, unmarkChar]
  · by_cases hs : c = 's'
    · subst hs; simp [voiceChar, unmarkChar]
    · simp [voiceChar, unmarkChar, hf, hs, hF, hS]

/-- C1: on any phonetic string and any ambiguity table, `disambiguate` keeps
an /f/ or /s/ (the unvoiced-doubled rendering) exactly at the positions the
table flags as ambiguous for the normalized string's collapsed shape, turns
every other /f/ into /v/ and every other /s/ into /z/, leaves all other
symbols unchanged and preserves length; when the shape is absent from the
table the result is the all-voiced rendering, and no error is ever raised
(the function is total). -/
theorem disambiguate_unvoiced_iff_flagged (ipa : List Char) (amb : AmbiguityMap) :
    (∀ (i : Nat) (c : Char), (normalizedOf ipa)[i]? = some c →
        (disambiguate ipa amb)[i]? = some
          (if c = 'f' then (if i ∈ flaggedOf ipa amb then 'f' else 'v')
           else if c = 's' then (if i ∈ flaggedOf ipa amb then 's' else 'z')
           else c)) ∧
    (disambiguate ipa amb).length = (normalizedOf ipa).length ∧
    (List.lookup (collapse_key (normalizedOf ipa)) amb = none →
        disambiguate ipa amb = (normalizedOf ipa).map voiceChar) := by
  have hnm : ∀ (i : Nat) (c : Char), (normalizedOf ipa)[i]? = some c → c ≠ 'F' ∧ c ≠ 'S' := by
    intro i c hc
    unfold normalizedOf at hc
    rw [List.getElem?_map] at hc
    rcases hx : (remove_stress_markers ipa)[i]? with _ | x
    · rw [hx] at hc; simp at hc
    · rw [hx] at hc
      simp at hc
      rw [← hc]
      exact normFVSZ_not_marker x
  refine ⟨?_, ?_, ?_⟩
  · intro i c hc
    rw [disambiguate_eq]
    rcases (hnm i c hc) with ⟨hF, hS⟩
    cases hl : List.lookup (collapse_key (normalizedOf ipa)) amb with
    | none =>
      have hflag : flaggedOf ipa amb = [] := by unfold flaggedOf; rw [hl]; rfl
      simp only [List.getElem?_map, hc, Option.map_some']
      rw [hflag]
      simp only [List.not_mem_nil, if_false]
      rw [net_voicing_plain c hF hS]
    | some ambs =>
      have hflag : flaggedOf ipa amb = ambs := by unfold flaggedOf; rw [hl]; rfl
      rw [hflag]
      simp only [List.getElem?_map, markAmbiguous_getElem?, hc]
      by_cases hmem : i ∈ ambs
      · simp only [if_pos hmem, Option.map_some']
        rw [net_voicing_marked c hF hS]
      · simp only [if_neg hmem, Option.map_some']
        rw [net_voicing_plain c hF hS]
  · rw [disambiguate_eq]
    cases hl : List.lookup (collapse_key (normalizedOf ipa)) amb with
    | none => simp [markAmbiguous_length, List.length_map]
    | some ambs => simp [markAmbiguous_length, List.length_map]
  · intro hl
    rw [disambiguate_eq, hl]
    unfold normalizedOf
    rw [List.map_map, List.map_map, List.map_map]
    apply List.map_congr_left
    intro x _
    rcases normFVSZ_not_marker x with ⟨hF, hS⟩
    show unmarkChar (voiceChar (normFVSZ x)) = voiceChar (normFVSZ x)
    have hv : voiceChar (normFVSZ x) ≠ 'F' ∧ voiceChar (normFVSZ x) ≠ 'S' := by
      unfold voiceChar
      split_ifs <;> simp_all
    simp [unmarkChar, hv.1, hv.2]

/-- Witness for C1 at a concrete input: in "liv"-vs-"lif" shape with position
2 flagged, the /f/ at position 2 stays unvoiced, and with no table entry it
voices to /v/. -/
theorem disambiguate_unvoiced_iff_flagged_witness :
    (disambiguate ['l', 'i', 'f'] [([108, 105, 0], [2])])[2]? = some 'f' ∧
    (disambiguate ['l', 'i', 'f'] [])[2]? = some 'v' := by
  constructor
  · have h := (disambiguate_unvoiced_iff_flagged ['l', 'i', 'f'] [([108, 105, 0], [2])]).1
      2 'f' (by decide)
    rw [h]
    decide
  · have h := (disambiguate_unvoiced_iff_flagged ['l', 'i', 'f'] []).1 2 'f' (by decide)
    rw [h]
    decide

/-- C9: `disambiguate` is total, and every listed ambiguous position is
bounds-checked: a table whose position lists are filtered down to in-range
positions yields the identical result, so out-of-range positions are
silently skipped; the output always has the length of the stress-stripped
input. -/
theorem disambiguate_out_of_range_skipped (ipa : List Char) (amb amb2 : AmbiguityMap)
    (h : List.lookup (collapse_key (normalizedOf ipa)) amb2 =
      (List.lookup (collapse_key (normalizedOf ipa)) amb).map
        (fun l => l.filter (fun i => decide (i < (normalizedOf ipa).length)))) :
    disambiguate ipa amb = disambiguate ipa amb2 ∧
    (disambiguate ipa amb).length = (normalizedOf ipa).length := by
  refine ⟨?_, (disambiguate_unvoiced_iff_flagged ipa amb).2.1⟩
  rw [disambiguate_eq, disambiguate_eq, h]
  cases hl : List.lookup (collapse_key (normalizedOf ipa)) amb with
  | none => rfl
  | some ambs =>
    simp only [Option.map_some']
    have hlen : (normalizedOf ipa).length = (normalizedOf ipa).length := rfl
    rw [← markAmbiguous_filter ambs (normalizedOf ipa)]

/-- Witness for C9: a table listing the out-of-range position 7 next to the
in-range position 1 behaves exactly like the table listing only position 1. -/
theorem disambiguate_out_of_range_skipped_witness :
    disambiguate ['f', 's'] [([0, 1], [1, 7])] = disambiguate ['f', 's'] [([0, 1], [1])] ∧
    (disambiguate ['f', 's'] [([0, 1], [1, 7])]).length = 2 := by
  have h := disambiguate_out_of_range_skipped ['f', 's'] [([0, 1], [1, 7])] [([0, 1], [1])]
    (by decide)
  exact ⟨h.1, h.2⟩

/-! ### Lemmas about the rune encoder -/

theorem runic2go_last_verbatim (l : List Char) (h : l ≠ []) (hc : lastConsumed l = false) :
    (runic2go l).getLast? = l.getLast? := by
  induction l using runic2go.induct with
  | case1 => simp at h
  | case2 a => simp [runic2go]
  | case3 a b rest out hp ih =>
    cases rest with
    | nil =>
      rw [show lastConsumed [a, b] = (pairRule a b).isSome from rfl, hp] at hc
      simp at hc
    | cons c r =>
      have hr : lastConsumed (c :: r) = false := by
        rw [show lastConsumed (a :: b :: c :: r) =
          (match pairRule a b with
           | some _ => lastConsumed (c :: r)
           | none => lastConsumed (b :: c :: r)) from rfl, hp] at hc
        exact hc
      unfold runic2go
      rw [hp, List.getLast?_append, ih (by simp) hr]
      cases hg : (c :: r).getLast? with
      | none => simp at hg
      | some x => simp [List.getLast?_cons_cons, hg]
  | case4 a b rest hp ih =>
    have hb : lastConsumed (b :: rest) = false := by
      cases rest with
      | nil => rfl
      | cons c r =>
        rw [show lastConsumed (a :: b :: c :: r) =
          (match pairRule a b with
           | some _ => lastConsumed (c :: r)
           | none => lastConsumed (b :: c :: r)) from rfl, hp] at hc
        exact hc
    have hih := ih (by simp) hb
    unfold runic2go
    rw [hp]
    cases hg : (b :: rest).getLast? with
    | none => simp [List.getLast?_eq_none_iff] at hg
    | some x =>
      have hne2 : runic2go (b :: rest) ≠ [] := by
        intro hnil
        rw [hnil, hg] at hih
        simp at hih
      have h1 : (a :: runic2go (b :: rest)).getLast? = (runic2go (b :: rest)).getLast? := by
        cases hg2 : runic2go (b :: rest) with
        | nil => exact absurd hg2 hne2
        | cons y ys => simp [List.getLast?_cons_cons]
      rw [h1, hih]
      exact List.getLast?_cons_cons.symm

/-- C7: for every non-empty input to encoder pass 1, if the scan ends
mid-pair (the final symbol is not consumed as the second element of a
matched digraph rule), that final symbol appears verbatim as the last unit
of the pass-1 output. -/
theorem translate_to_runic_2_last_leftover_verbatim (l : List Char) (h : l ≠ [])
    (hc : lastConsumed l = false) :
    ∃ out, translate_to_runic_2 l = some out ∧ out ≠ [] ∧ out.getLast? = l.getLast? := by
  refine ⟨runic2go l, by simp [translate_to_runic_2, h], ?_,
    runic2go_last_verbatim l h hc⟩
  have hlast := runic2go_last_verbatim l h hc
  intro hnil
  rw [hnil] at hlast
  have : l.getLast? = none := hlast.symm
  rw [List.getLast?_eq_none_iff] at this
  exact h this

/-- Witness for C7 at the two-symbol input "ab", whose pair matches no rule. -/
theorem translate_to_runic_2_last_leftover_verbatim_witness :
    ∃ out, translate_to_runic_2 ['a', 'b'] = some out ∧ out ≠ [] ∧
      out.getLast? = (['a', 'b'] : List Char).getLast? :=
  translate_to_runic_2_last_leftover_verbatim ['a', 'b'] (by decide) (by decide)

/-- C10: encoder pass 1 panics on the empty string (the unwrap of the last
element of the empty character vector, modelled as `none`) and returns
normally on every non-empty input. -/
theorem translate_to_runic_2_empty_panics :
    translate_to_runic_2 [] = none ∧
    ∀ l : List Char, l ≠ [] → (translate_to_runic_2 l).isSome = true := by
  refine ⟨rfl, ?_⟩
  intro l hl
  simp [translate_to_runic_2, hl]

/-- Witness for C10: the single-symbol input "a" returns normally. -/
theorem translate_to_runic_2_empty_panics_witness :
    translate_to_runic_2 [] = none ∧ (translate_to_runic_2 ['a']).isSome = true :=
  ⟨translate_to_runic_2_empty_panics.1, translate_to_runic_2_empty_panics.2 ['a'] (by decide)⟩

/-! ### Shape collapsing under voicing edits -/

/-- Two symbols are voicing-equivalent when they are equal or differ only by
an f-versus-v or s-versus-z voicing choice. -/
def voicingEquiv (c c2 : Char) : Prop :=
  c = c2 ∨ (c = 'f' ∧ c2 = 'v') ∨ (c = 'v' ∧ c2 = 'f') ∨
    (c = 's' ∧ c2 = 'z') ∨ (c = 'z' ∧ c2 = 's')

/-- C8: shape collapsing is stable under voicing-only edits: two phonetic
strings that agree everywhere except for f-versus-v and s-versus-z choices
have the same collapsed key. -/
theorem collapse_key_voicing_stable (w w2 : List Char)
    (h : List.Forall₂ voicingEquiv w w2) :
    collapse_key w = collapse_key w2 := by
  induction h with
  | nil => rfl
  | cons hcc _ ih =>
    simp only [collapse_key, List.map_cons] at *
    rw [ih]
    rcases hcc with rfl | ⟨rfl, rfl⟩ | ⟨rfl, rfl⟩ | ⟨rfl, rfl⟩ | ⟨rfl, rfl⟩ <;> rfl

/-- Witness for C8: "lif" and "liv" share a collapsed shape. -/
theorem collapse_key_voicing_stable_witness :
    List.Forall₂ voicingEquiv ['l', 'i', 'f'] ['l', 'i', 'v'] ∧
    collapse_key ['l', 'i', 'f'] = collapse_key ['l', 'i', 'v'] := by
  have hfa : List.Forall₂ voicingEquiv ['l', 'i', 'f'] ['l', 'i', 'v'] :=
    .cons (Or.inl rfl) (.cons (Or.inl rfl) (.cons (Or.inr (Or.inl ⟨rfl, rfl⟩)) .nil))
  exact ⟨hfa, collapse_key_voicing_stable _ _ hfa⟩


/-! ### The ambiguity detector (detect_ambiguities from lib.rs) -/

/-- Rust u32::trailing_zeros, for the clear-lowest-set-bit enumeration loop. -/
def trailingZeros (n : Nat) : Nat :=
  if n = 0 then 32
  else if n % 2 = 1 then 0
  else trailingZeros (n / 2) + 1
termination_by n
decreasing_by exact Nat.div_lt_self (Nat.pos_of_ne_zero (by assumption)) (by decide)

/-- The while-loop of detect_ambiguities: push trailing_zeros, then clear the
lowest set bit with n &&& (n - 1), until the mask is zero. -/
def bitIndices (n : Nat) : List Nat :=
  if h : n = 0 then []
  else trailingZeros n :: bitIndices (n &&& (n - 1))
termination_by n
decreasing_by
  have h1 : n &&& (n - 1) ≤ n - 1 := Nat.and_le_right
  omega

structure BuildState where
  seen_f : Nat
  seen_v : Nat
  seen_s : Nat
  seen_z : Nat
deriving DecidableEq

def zeroBS : BuildState := ⟨0, 0, 0, 0⟩

def orBS (a b : BuildState) : BuildState :=
  ⟨a.seen_f ||| b.seen_f, a.seen_v ||| b.seen_v, a.seen_s ||| b.seen_s, a.seen_z ||| b.seen_z⟩

def ingChar (c : Char) (i : Nat) : BuildState :=
  if c = 'f' then ⟨1 <<< i, 0, 0, 0⟩
  else if c = 'v' then ⟨0, 1 <<< i, 0, 0⟩
  else if c = 's' ∨ c = 'S' then ⟨0, 0, 1 <<< i, 0⟩
  else if c = 'z' then ⟨0, 0, 0, 1 <<< i⟩
  else zeroBS

def ingestAux : Nat → List Char → BuildState
  | _, [] => zeroBS
  | i, c :: rest => if 32 ≤ i then zeroBS else orBS (ingChar c i) (ingestAux (i + 1) rest)

def ingest_word (w : List Char) : BuildState := ingestAux 0 w

def updateMap (m : List (List Nat × BuildState)) (k : List Nat) (st : BuildState) :
    List (List Nat × BuildState) :=
  match m with
  | [] => [(k, orBS zeroBS st)]
  | (k2, st2) :: rest =>
    if k2 = k then (k2, orBS st2 st) :: rest else (k2, st2) :: updateMap rest k st

def entryKey (e : List Char × List Char) : List Nat :=
  collapse_key (remove_stress_markers e.2)

def entryState (e : List Char × List Char) : BuildState :=
  ingest_word (remove_stress_markers e.2)

def full_dict (dict : List (List Char × List Char)) : List (List Nat × BuildState) :=
  dict.foldl (fun m e => updateMap m (entryKey e) (entryState e)) []

def ambOfState (st : BuildState) : Nat :=
  (st.seen_f &&& st.seen_v) ||| (st.seen_s &&& st.seen_z)

def detect_ambiguities (dict : List (List Char × List Char)) : List (List Nat × List Nat) :=
  (full_dict dict).filterMap (fun e =>
    if ambOfState e.2 ≠ 0 then some (e.1, bitIndices (ambOfState e.2)) else none)

def stateAt (dict : List (List Char × List Char)) (k : List Nat) : BuildState :=
  (List.lookup k (full_dict dict)).getD zeroBS

theorem ingestAux_testBit (F : BuildState → Nat) (P : Char → Prop) [DecidablePred P]
    (hzero : F zeroBS = 0)
    (hor : ∀ a b, F (orBS a b) = F a ||| F b)
    (hchar : ∀ c i, F (ingChar c i) = if P c then 1 <<< i else 0)
    (w : List Char) (i q : Nat) (h32 : ¬ 32 ≤ i) :
    (F (ingestAux i w)).testBit q = true ↔
      (i ≤ q ∧ q < 32 ∧ ∃ c, w[q - i]? = some c ∧ P c) := by
  induction w generalizing i with
  | nil =>
    simp [ingestAux, hzero, Nat.zero_testBit]
  | cons c rest ih =>
    rw [show ingestAux i (c :: rest) =
      if 32 ≤ i then zeroBS else orBS (ingChar c i) (ingestAux (i + 1) rest) from rfl]
    rw [if_neg h32, hor, Nat.testBit_or, hchar]
    by_cases h32b : 32 ≤ i + 1
    · have hi : i = 31 := by omega
      have hrest : F (ingestAux (i + 1) rest) = 0 := by
        cases rest with
        | nil => simp [ingestAux, hzero]
        | cons d tl =>
          rw [show ingestAux (i + 1) (d :: tl) =
            if 32 ≤ i + 1 then zeroBS
            else orBS (ingChar d (i + 1)) (ingestAux (i + 2) tl) from rfl]
          rw [if_pos h32b, hzero]
      rw [hrest, Nat.zero_testBit]
      by_cases hp : P c
      · rw [if_pos hp, Nat.one_shiftLeft, Nat.testBit_two_pow]
        subst hi
        constructor
        · intro hq
          simp only [Bool.or_false, decide_eq_true_eq] at hq
          subst hq
          exact ⟨le_refl _, by omega, c, by simp, hp⟩
        · rintro ⟨hle, hlt, c2, hc2, hp2⟩
          have : q = 31 := by omega
          subst this
          simp
      · rw [if_neg hp, Nat.zero_testBit]
        subst hi
        simp only [Bool.or_self]
        constructor
        · intro hq; cases hq
        · rintro ⟨hle, hlt, c2, hc2, hp2⟩
          have : q = 31 := by omega
          subst this
          simp only [Nat.sub_self, List.getElem?_cons_zero, Option.some_inj] at hc2
          rw [← hc2] at hp2
          exact absurd hp2 hp
    · rw [Bool.or_eq_true, ih (i + 1) h32b]
      by_cases hp : P c
      · rw [if_pos hp, Nat.one_shiftLeft, Nat.testBit_two_pow]
        constructor
        · intro hq
          rcases hq with h | h
          · have hiq : i = q := by simpa using h
            subst hiq
            exact ⟨le_refl _, by omega, c, by simp, hp⟩
          · rcases h with ⟨hle, hlt, c2, hc2, hp2⟩
            refine ⟨by omega, hlt, c2, ?_, hp2⟩
            rw [show q - i = (q - (i + 1)) + 1 from by omega]
            simpa using hc2
        · rintro ⟨hle, hlt, c2, hc2, hp2⟩
          rcases Nat.eq_or_lt_of_le hle with heq | hlt2
          · subst heq
            simp only [Nat.sub_self, List.getElem?_cons_zero, Option.some_inj] at hc2
            left
            simp
          · right
            refine ⟨by omega, hlt, c2, ?_, hp2⟩
            rw [show q - i = (q - (i + 1)) + 1 from by omega] at hc2
            simpa using hc2
      · rw [if_neg hp, Nat.zero_testBit]
        simp only [Bool.false_eq_true, false_or]
        constructor
        · rintro ⟨hle, hlt, c2, hc2, hp2⟩
          refine ⟨by omega, hlt, c2, ?_, hp2⟩
          rw [show q - i = (q - (i + 1)) + 1 from by omega]
          simpa using hc2
        · rintro ⟨hle, hlt, c2, hc2, hp2⟩
          rcases Nat.eq_or_lt_of_le hle with heq | hlt2
          · subst heq
            simp only [Nat.sub_self, List.getElem?_cons_zero, Option.some_inj] at hc2
            rw [← hc2] at hp2
            exact absurd hp2 hp
          · refine ⟨by omega, hlt, c2, ?_, hp2⟩
            rw [show q - i = (q - (i + 1)) + 1 from by omega] at hc2
            simpa using hc2

theorem trailingZeros_two_mul (k : Nat) (hk : k ≠ 0) :
    trailingZeros (2 * k) = trailingZeros k + 1 := by
  rw [trailingZeros]
  rw [if_neg (by omega), if_neg (by omega)]
  congr 1
  congr 1
  omega

theorem trailingZeros_odd (k : Nat) : trailingZeros (2 * k + 1) = 0 := by
  rw [trailingZeros]
  rw [if_neg (by omega), if_pos (by omega)]

theorem and_pred_two_mul (k : Nat) :
    (2 * k) &&& (2 * k - 1) = 2 * (k &&& (k - 1)) := by
  apply Nat.eq_of_testBit_eq
  intro i
  cases i with
  | zero =>
    have h1 : (2 * k) % 2 = 0 := by omega
    have h2 : (2 * (k &&& (k - 1))) % 2 = 0 := by omega
    simp [Nat.testBit_and, Nat.testBit_zero, h1, h2]
  | succ j =>
    have h1 : 2 * k / 2 = k := by omega
    have h2 : (2 * k - 1) / 2 = k - 1 := by omega
    have h3 : 2 * (k &&& (k - 1)) / 2 = k &&& (k - 1) := by omega
    rw [Nat.testBit_and, Nat.testBit_succ, Nat.testBit_succ, Nat.testBit_succ, h1, h2, h3,
      Nat.testBit_and]

theorem and_pred_odd (k : Nat) : (2 * k + 1) &&& (2 * k) = 2 * k := by
  apply Nat.eq_of_testBit_eq
  intro i
  cases i with
  | zero =>
    have h1 : (2 * k + 1) % 2 = 1 := by omega
    have h2 : (2 * k) % 2 = 0 := by omega
    simp [Nat.testBit_and, Nat.testBit_zero, h1, h2]
  | succ j =>
    have h1 : (2 * k + 1) / 2 = k := by omega
    have h2 : 2 * k / 2 = k := by omega
    rw [Nat.testBit_and, Nat.testBit_succ, Nat.testBit_succ, h1, h2, Bool.and_self]

theorem bitIndices_two_mul (k : Nat) :
    bitIndices (2 * k) = (bitIndices k).map (· + 1) := by
  induction k using Nat.strong_induction_on with
  | _ k ih =>
    by_cases hk : k = 0
    · subst hk; rw [show 2 * 0 = 0 from rfl, bitIndices, bitIndices]; simp
    · rw [bitIndices, dif_neg (by omega : ¬ 2 * k = 0)]
      rw [and_pred_two_mul k, trailingZeros_two_mul k hk]
      rw [ih (k &&& (k - 1)) (by have := Nat.and_le_right (n := k) (m := k - 1); omega)]
      rw [show bitIndices k = trailingZeros k :: bitIndices (k &&& (k - 1)) from by
        rw [bitIndices, dif_neg hk]]
      simp

theorem bitIndices_odd (k : Nat) :
    bitIndices (2 * k + 1) = 0 :: bitIndices (2 * k) := by
  rw [bitIndices, dif_neg (by omega : ¬ 2 * k + 1 = 0)]
  rw [show 2 * k + 1 - 1 = 2 * k from rfl, and_pred_odd, trailingZeros_odd]

theorem mem_bitIndices (n p : Nat) : p ∈ bitIndices n ↔ n.testBit p = true := by
  induction n using Nat.strong_induction_on generalizing p with
  | _ n ih =>
    by_cases hn : n = 0
    · subst hn; rw [bitIndices]; simp [Nat.zero_testBit]
    · rcases Nat.even_or_odd n with ⟨k, hk⟩ | ⟨k, hk⟩
      · subst hk
        have hk0 : k ≠ 0 := by omega
        rw [show k + k = 2 * k from by omega] at *
        rw [bitIndices_two_mul, List.mem_map]
        cases p with
        | zero =>
          constructor
          · rintro ⟨q, _, hq⟩; omega
          · intro hb
            have h1 : (2 * k) % 2 = 0 := by omega
            rw [Nat.testBit_zero] at hb
            simp [h1] at hb
        | succ j =>
          have h2 : 2 * k / 2 = k := by omega
          rw [Nat.testBit_succ, h2]
          constructor
          · rintro ⟨q, hq, hqe⟩
            have hqj : q = j := by omega
            rw [← hqj]
            exact (ih k (by omega) q).mp hq
          · intro hb
            exact ⟨j, (ih k (by omega) j).mpr hb, rfl⟩
      · subst hk
        rw [bitIndices_odd, List.mem_cons]
        cases p with
        | zero =>
          have h1 : (2 * k + 1) % 2 = 1 := by omega
          rw [Nat.testBit_zero]
          simp [h1]
        | succ j =>
          have h1 : (2 * k + 1) / 2 = k := by omega
          have h2 : 2 * k / 2 = k := by omega
          rw [Nat.testBit_succ, h1]
          rw [ih (2 * k) (by omega) (j + 1), Nat.testBit_succ, h2]
          simp

theorem lookup_updateMap (m : List (List Nat × BuildState)) (k k2 : List Nat) (st : BuildState) :
    List.lookup k2 (updateMap m k st) =
      if k = k2 then some (orBS ((List.lookup k2 m).getD zeroBS) st)
      else List.lookup k2 m := by
  induction m with
  | nil =>
    by_cases hk : k = k2
    · subst hk
      rw [if_pos rfl]
      simp [updateMap, List.lookup]
    · rw [if_neg hk]
      have hb : (k2 == k) = false := beq_eq_false_iff_ne.mpr (fun h => hk h.symm)
      simp [updateMap, List.lookup, hb]
  | cons e rest ih =>
    obtain ⟨k3, st3⟩ := e
    show List.lookup k2 (if k3 = k then (k3, orBS st3 st) :: rest
      else (k3, st3) :: updateMap rest k st) = _
    by_cases h3 : k3 = k
    · subst h3
      rw [if_pos rfl]
      by_cases hk : k3 = k2
      · subst hk
        rw [if_pos rfl]
        simp [List.lookup]
      · have hb : (k2 == k3) = false := beq_eq_false_iff_ne.mpr (fun h => hk h.symm)
        rw [if_neg hk]
        simp [List.lookup, hb]
    · rw [if_neg h3]
      by_cases hk : k3 = k2
      · subst hk
        have hne : ¬ k = k3 := fun h => h3 h.symm
        rw [if_neg hne]
        simp [List.lookup]
      · have hb : (k2 == k3) = false := beq_eq_false_iff_ne.mpr (fun h => hk h.symm)
        simp only [List.lookup, hb]
        exact ih

theorem lookup_foldl_getD (dict : List (List Char × List Char))
    (m : List (List Nat × BuildState)) (k : List Nat) :
    (List.lookup k (dict.foldl (fun m e => updateMap m (entryKey e) (entryState e)) m)).getD
        zeroBS =
      dict.foldl (fun st e => if entryKey e = k then orBS st (entryState e) else st)
        ((List.lookup k m).getD zeroBS) := by
  induction dict generalizing m with
  | nil => rfl
  | cons e rest ih =>
    rw [List.foldl_cons, List.foldl_cons, ih]
    congr 1
    rw [lookup_updateMap]
    by_cases he : entryKey e = k
    · rw [if_pos he, if_pos he]
      simp
    · rw [if_neg he, if_neg he]

theorem stateAt_eq_foldl (dict : List (List Char × List Char)) (k : List Nat) :
    stateAt dict k =
      dict.foldl (fun st e => if entryKey e = k then orBS st (entryState e) else st) zeroBS := by
  unfold stateAt full_dict
  rw [lookup_foldl_getD]
  rfl

theorem foldl_or_testBit (F : BuildState → Nat)
    (hor : ∀ a b, F (orBS a b) = F a ||| F b)
    (dict : List (List Char × List Char)) (k : List Nat) (q : Nat) (st0 : BuildState) :
    ((F (dict.foldl
        (fun st e => if entryKey e = k then orBS st (entryState e) else st) st0)).testBit q =
      true) ↔
      ((F st0).testBit q = true ∨
        ∃ e ∈ dict, entryKey e = k ∧ (F (entryState e)).testBit q = true) := by
  induction dict generalizing st0 with
  | nil => simp
  | cons e rest ih =>
    rw [List.foldl_cons, ih]
    by_cases he : entryKey e = k
    · rw [if_pos he, hor, Nat.testBit_or, Bool.or_eq_true]
      constructor
      · rintro (⟨h | h⟩ | h)
        · exact Or.inl h
        · exact Or.inr ⟨e, by simp, he, h⟩
        · rcases h with ⟨e2, he2, hk2, hb2⟩
          exact Or.inr ⟨e2, by simp [he2], hk2, hb2⟩
      · rintro (h | ⟨e2, he2, hk2, hb2⟩)
        · exact Or.inl (Or.inl h)
        · rcases List.mem_cons.mp he2 with rfl | he3
          · exact Or.inl (Or.inr hb2)
          · exact Or.inr ⟨e2, he3, hk2, hb2⟩
    · rw [if_neg he]
      constructor
      · rintro (h | ⟨e2, he2, hk2, hb2⟩)
        · exact Or.inl h
        · exact Or.inr ⟨e2, by simp [he2], hk2, hb2⟩
      · rintro (h | ⟨e2, he2, hk2, hb2⟩)
        · exact Or.inl h
        · rcases List.mem_cons.mp he2 with rfl | he3
          · exact absurd hk2 he
          · exact Or.inr ⟨e2, he3, hk2, hb2⟩

/-- Occurrence of a symbol class at one position of one shape's transcriptions. -/
def occursAt (dict : List (List Char × List Char)) (k : List Nat) (p : Nat)
    (P : Char → Prop) : Prop :=
  ∃ e ∈ dict, collapse_key (remove_stress_markers e.2) = k ∧
    ∃ c, (remove_stress_markers e.2)[p]? = some c ∧ P c

theorem stateAt_testBit (F : BuildState → Nat) (P : Char → Prop) [DecidablePred P]
    (hzero : F zeroBS = 0)
    (hor : ∀ a b, F (orBS a b) = F a ||| F b)
    (hchar : ∀ c i, F (ingChar c i) = if P c then 1 <<< i else 0)
    (dict : List (List Char × List Char)) (k : List Nat) (q : Nat) :
    (F (stateAt dict k)).testBit q = true ↔ (q < 32 ∧ occursAt dict k q P) := by
  rw [stateAt_eq_foldl, foldl_or_testBit F hor, hzero, Nat.zero_testBit]
  simp only [Bool.false_eq_true, false_or]
  unfold occursAt entryKey entryState ingest_word
  constructor
  · rintro ⟨e, he, hk, hb⟩
    rcases (ingestAux_testBit F P hzero hor hchar (remove_stress_markers e.2) 0 q
        (by omega)).mp hb with ⟨_, hlt, c, hc, hp⟩
    refine ⟨hlt, e, he, hk, c, ?_, hp⟩
    simpa using hc
  · rintro ⟨hlt, e, he, hk, c, hc, hp⟩
    refine ⟨e, he, hk, ?_⟩
    exact (ingestAux_testBit F P hzero hor hchar (remove_stress_markers e.2) 0 q
      (by omega)).mpr ⟨by omega, hlt, c, by simpa using hc, hp⟩

theorem updateMap_keys (m : List (List Nat × BuildState)) (k : List Nat) (st : BuildState) :
    (updateMap m k st).map Prod.fst =
      if k ∈ m.map Prod.fst then m.map Prod.fst else m.map Prod.fst ++ [k] := by
  induction m with
  | nil => simp [updateMap]
  | cons e rest ih =>
    obtain ⟨k3, st3⟩ := e
    show (if k3 = k then (k3, orBS st3 st) :: rest
      else (k3, st3) :: updateMap rest k st).map Prod.fst = _
    by_cases h3 : k3 = k
    · subst h3
      rw [if_pos rfl]
      simp
    · rw [if_neg h3]
      simp only [List.map_cons, ih]
      by_cases hm : k ∈ rest.map Prod.fst
      · rw [if_pos hm, if_pos (by simp [hm])]
      · rw [if_neg hm, if_neg (by
          simp only [List.map_cons, List.mem_cons]
          rintro (h | h)
          · exact h3 h.symm
          · exact hm h)]
        simp

theorem full_dict_keys_nodup (dict : List (List Char × List Char)) :
    ((full_dict dict).map Prod.fst).Nodup := by
  suffices h : ∀ m : List (List Nat × BuildState), (m.map Prod.fst).Nodup →
      ((dict.foldl (fun m e => updateMap m (entryKey e) (entryState e)) m).map Prod.fst).Nodup by
    exact h [] (by simp)
  induction dict with
  | nil => intro m hm; exact hm
  | cons e rest ih =>
    intro m hm
    rw [List.foldl_cons]
    apply ih
    rw [updateMap_keys]
    by_cases hk : entryKey e ∈ m.map Prod.fst
    · rw [if_pos hk]; exact hm
    · rw [if_neg hk]
      simp [List.nodup_append, hm, hk]

theorem lookup_filterMap_absent (m : List (List Nat × BuildState)) (k : List Nat)
    (hk : k ∉ m.map Prod.fst) :
    List.lookup k (m.filterMap (fun e =>
      if ambOfState e.2 ≠ 0 then some (e.1, bitIndices (ambOfState e.2)) else none)) = none := by
  induction m with
  | nil => rfl
  | cons e rest ih =>
    obtain ⟨k1, st1⟩ := e
    simp only [List.map_cons, List.mem_cons] at hk
    push_neg at hk
    rw [List.filterMap_cons]
    by_cases hamb : ambOfState st1 ≠ 0
    · rw [if_pos hamb]
      have hb : (k == k1) = false := beq_eq_false_iff_ne.mpr hk.1
      simp only [List.lookup, hb]
      exact ih hk.2
    · rw [if_neg hamb]
      exact ih hk.2

theorem lookup_filterMap_detect (m : List (List Nat × BuildState)) (k : List Nat)
    (hm : (m.map Prod.fst).Nodup) :
    List.lookup k (m.filterMap (fun e =>
        if ambOfState e.2 ≠ 0 then some (e.1, bitIndices (ambOfState e.2)) else none)) =
      match List.lookup k m with
      | some st => if ambOfState st ≠ 0 then some (bitIndices (ambOfState st)) else none
      | none => none := by
  induction m with
  | nil => rfl
  | cons e rest ih =>
    obtain ⟨k1, st1⟩ := e
    simp only [List.map_cons, List.nodup_cons] at hm
    rw [List.filterMap_cons]
    by_cases hk : k1 = k
    · subst hk
      have hb : (k1 == k1) = true := beq_self_eq_true k1
      by_cases hamb : ambOfState st1 ≠ 0
      · rw [if_pos hamb]
        simp only [List.lookup, hb]
        rw [if_pos hamb]
      · rw [if_neg hamb]
        simp only [List.lookup, hb]
        rw [if_neg hamb]
        exact lookup_filterMap_absent rest k1 hm.1
    · have hb : (k == k1) = false := beq_eq_false_iff_ne.mpr (fun h => hk h.symm)
      by_cases hamb : ambOfState st1 ≠ 0
      · rw [if_pos hamb]
        simp only [List.lookup, hb]
        exact ih hm.2
      · rw [if_neg hamb]
        simp only [List.lookup, hb]
        exact ih hm.2

theorem lookup_detect (dict : List (List Char × List Char)) (k : List Nat) :
    List.lookup k (detect_ambiguities dict) =
      if ambOfState (stateAt dict k) ≠ 0
      then some (bitIndices (ambOfState (stateAt dict k))) else none := by
  unfold detect_ambiguities
  rw [lookup_filterMap_detect (full_dict dict) k (full_dict_keys_nodup dict)]
  unfold stateAt
  cases hl : List.lookup k (full_dict dict) with
  | none =>
    have hz : ambOfState ((none : Option BuildState).getD zeroBS) = 0 := rfl
    rw [hz]
    simp
  | some st => rfl

theorem ingChar_seen_f (c : Char) (i : Nat) :
    (ingChar c i).seen_f = if c = 'f' then 1 <<< i else 0 := by
  unfold ingChar
  split_ifs <;> simp_all [zeroBS]

theorem ingChar_seen_v (c : Char) (i : Nat) :
    (ingChar c i).seen_v = if c = 'v' then 1 <<< i else 0 := by
  unfold ingChar
  split_ifs <;> simp_all [zeroBS]

theorem ingChar_seen_s (c : Char) (i : Nat) :
    (ingChar c i).seen_s = if c = 's' ∨ c = 'S' then 1 <<< i else 0 := by
  unfold ingChar
  split_ifs <;> simp_all [zeroBS]

theorem ingChar_seen_z (c : Char) (i : Nat) :
    (ingChar c i).seen_z = if c = 'z' then 1 <<< i else 0 := by
  unfold ingChar
  split_ifs <;> simp_all [zeroBS]

theorem ambOfState_testBit (dict : List (List Char × List Char)) (k : List Nat) (q : Nat) :
    (ambOfState (stateAt dict k)).testBit q = true ↔
      (q < 32 ∧ ((occursAt dict k q (fun c => c = 'f') ∧ occursAt dict k q (fun c => c = 'v')) ∨
        (occursAt dict k q (fun c => c = 's' ∨ c = 'S') ∧
          occursAt dict k q (fun c => c = 'z')))) := by
  unfold ambOfState
  rw [Nat.testBit_or, Nat.testBit_and, Nat.testBit_and, Bool.or_eq_true, Bool.and_eq_true,
    Bool.and_eq_true]
  rw [stateAt_testBit (fun st => st.seen_f) (fun c => c = 'f') rfl (fun a b => rfl)
    ingChar_seen_f dict k q]
  rw [stateAt_testBit (fun st => st.seen_v) (fun c => c = 'v') rfl (fun a b => rfl)
    ingChar_seen_v dict k q]
  rw [stateAt_testBit (fun st => st.seen_s) (fun c => c = 's' ∨ c = 'S') rfl (fun a b => rfl)
    ingChar_seen_s dict k q]
  rw [stateAt_testBit (fun st => st.seen_z) (fun c => c = 'z') rfl (fun a b => rfl)
    ingChar_seen_z dict k q]
  constructor
  · rintro (⟨⟨hq, h1⟩, ⟨_, h2⟩⟩ | ⟨⟨hq, h1⟩, ⟨_, h2⟩⟩)
    · exact ⟨hq, Or.inl ⟨h1, h2⟩⟩
    · exact ⟨hq, Or.inr ⟨h1, h2⟩⟩
  · rintro ⟨hq, (⟨h1, h2⟩ | ⟨h1, h2⟩)⟩
    · exact Or.inl ⟨⟨hq, h1⟩, ⟨hq, h2⟩⟩
    · exact Or.inr ⟨⟨hq, h1⟩, ⟨hq, h2⟩⟩

/-- C2: detect_ambiguities maps a collapsed shape to exactly the set of
positions p < 32 at which, across all stress-stripped transcriptions sharing
that shape, both an f and a v occur, or both an s-class symbol (s or
the S marker) and a z occur; positions at 32 or beyond never register, and
a shape is absent from the map exactly when it has no ambiguous position. -/
theorem detect_ambiguities_spec (dict : List (List Char × List Char)) (k : List Nat) (p : Nat) :
    (p ∈ (List.lookup k (detect_ambiguities dict)).getD [] ↔
      (p < 32 ∧
        ((occursAt dict k p (fun c => c = 'f') ∧ occursAt dict k p (fun c => c = 'v')) ∨
          (occursAt dict k p (fun c => c = 's' ∨ c = 'S') ∧
            occursAt dict k p (fun c => c = 'z'))))) ∧
    (List.lookup k (detect_ambiguities dict) = none ↔
      ∀ q : Nat, ¬(q < 32 ∧
        ((occursAt dict k q (fun c => c = 'f') ∧ occursAt dict k q (fun c => c = 'v')) ∨
          (occursAt dict k q (fun c => c = 's' ∨ c = 'S') ∧
            occursAt dict k q (fun c => c = 'z'))))) := by
  have hlk := lookup_detect dict k
  constructor
  · rw [hlk]
    by_cases hamb : ambOfState (stateAt dict k) ≠ 0
    · rw [if_pos hamb]
      show p ∈ bitIndices _ ↔ _
      rw [mem_bitIndices]
      exact ambOfState_testBit dict k p
    · rw [if_neg hamb]
      push_neg at hamb
      show p ∈ ([] : List Nat) ↔ _
      simp only [List.not_mem_nil, false_iff]
      intro hcond
      have hb := (ambOfState_testBit dict k p).mpr hcond
      rw [hamb] at hb
      rw [Nat.zero_testBit] at hb
      exact Bool.false_ne_true hb
  · rw [hlk]
    by_cases hamb : ambOfState (stateAt dict k) ≠ 0
    · rw [if_pos hamb]
      constructor
      · intro h
        exact absurd h (by simp)
      · intro hall
        exfalso
        have hmem : trailingZeros (ambOfState (stateAt dict k)) ∈
            bitIndices (ambOfState (stateAt dict k)) := by
          rw [bitIndices, dif_neg hamb]
          exact List.mem_cons_self _ _
        have hb := (mem_bitIndices _ _).mp hmem
        exact hall _ ((ambOfState_testBit dict k _).mp hb)
    · rw [if_neg hamb]
      push_neg at hamb
      constructor
      · intro _ q hcond
        have hb := (ambOfState_testBit dict k q).mpr hcond
        rw [hamb, Nat.zero_testBit] at hb
        exact Bool.false_ne_true hb
      · intro _
        rfl


/-! ### Embedding of src/rust/src/futhorc.rs (word transform and assembly) -/

/-- Rust char::to_ascii_lowercase, applied per character by
make_ascii_lowercase. -/
def ascii_lower (c : Char) : Char :=
  if 'A' ≤ c ∧ c ≤ 'Z' then Char.ofNat (c.toNat + 32) else c

/-- The trailing-punctuation strip at the top of the translate loop: one of
the six sentence marks is removed and remembered, otherwise the marker
character is the space placeholder. -/
def stripPunctChar (w : List Char) : Char × List Char :=
  match w.getLast? with
  | some c =>
    if c = ',' ∨ c = ':' ∨ c = ';' ∨ c = '.' ∨ c = '!' ∨ c = '?' then (c, w.dropLast)
    else (' ', w)
  | none => (' ', w)

/-- Splitter on a predicate, dropping empty tokens: Rust str::split_whitespace
(with the Unicode predicate) and str::split_ascii_whitespace (with the ASCII
predicate). -/
def splitAux (p : Char → Bool) : List Char → List Char → List (List Char)
  | [], acc => if acc = [] then [] else [acc.reverse]
  | c :: rest, acc =>
    if p c then
      (if acc = [] then splitAux p rest [] else acc.reverse :: splitAux p rest [])
    else splitAux p rest (c :: acc)

/-- Rust str::split_whitespace on the lowercased input. -/
def split_whitespace (words : List Char) : List (List Char) :=
  splitAux rust_is_whitespace words []

/-- Rust str::split_ascii_whitespace, used by the dictionary loader. -/
def split_ascii_ws (line : List Char) : List (List Char) :=
  splitAux ascii_ws line []

/-- Rust str::split('-'): split on every hyphen, keeping empty segments. -/
def splitOn (sep : Char) : List Char → List (List Char)
  | [] => [[]]
  | c :: rest =>
    if c = sep then [] :: splitOn sep rest
    else
      match splitOn sep rest with
      | [] => [[c]]
      | s :: ss => (c :: s) :: ss

/-- `parse_whitespace` from futhorc.rs: the on_space scan recording every
whitespace run, including the leading and trailing (possibly empty) runs. -/
def parseWsAux : List Char → Bool → List Char → List (List Char)
  | [], true, space => [space]
  | [], false, _ => [[]]
  | ch :: rest, true, space =>
    if rust_is_whitespace ch then parseWsAux rest true (space ++ [ch])
    else space :: parseWsAux rest false []
  | ch :: rest, false, space =>
    if rust_is_whitespace ch then parseWsAux rest true (space ++ [ch])
    else parseWsAux rest false space

/-- Entry point of `parse_whitespace`. -/
def parse_whitespace (words : List Char) : List (List Char) :=
  parseWsAux words true []

/-- The shared elision step of the 'll and 've suffix edits: drop a final
schwa-class vowel (or the rewritten a). -/
def elide_schwa (cs : List Char) : List Char :=
  match cs.getLast? with
  | some c => if c = 'ə' ∨ c = 'ʌ' ∨ c = 'ɜ' ∨ c = 'a' then cs.dropLast else cs
  | none => cs

/-- The shared promotion step of the 'll and 've suffix edits: a now-final i
becomes the short-front-vowel marker I. -/
def promote_i (cs : List Char) : List Char :=
  match cs.getLast? with
  | some 'i' => cs.dropLast ++ ['I']
  | _ => cs

/-- The apostrophe-suffix else-if chain of handle_ipa_word, in source order:
't, 'd, 's, 'll, bare ', 're, 've.  `none` models the panicking unwraps on
an empty phonetic string. -/
def suffix_edit (word ipa : List Char) : Option (List Char) :=
  if List.isSuffixOf [apos, 't'] word then
    match ipa.getLast? with
    | none => none
    | some c => some (ipa.dropLast ++ [apos, c])
  else if List.isSuffixOf [apos, 'd'] word then
    match ipa.getLast? with
    | none => none
    | some c =>
      if ipa.dropLast.getLast? = some 'ʌ' ∨ ipa.dropLast.getLast? = some 'ɪ' then
        some (ipa.dropLast.dropLast ++ [apos, 'd'])
      else some (ipa.dropLast ++ [apos, c])
  else if List.isSuffixOf [apos, 's'] word then
    match ipa.getLast? with
    | none => none
    | some c =>
      if ipa.dropLast.getLast? = some 'i' then
        some (ipa.dropLast.dropLast ++ ['I', apos, c])
      else some (ipa.dropLast ++ [apos, c])
  else if List.isSuffixOf [apos, 'l', 'l'] word then
    match ipa.getLast? with
    | some 'l' => some (promote_i (elide_schwa ipa.dropLast) ++ [apos, 'l'])
    | _ => some (ipa ++ [apos, 'l'])
  else if List.isSuffixOf [apos] word then
    some (ipa ++ [apos])
  else if List.isSuffixOf [apos, 'r', 'e'] word then
    match ipa.getLast? with
    | none => none
    | some _ => some (ipa.dropLast ++ [apos, 'ɹ'])
  else if List.isSuffixOf [apos, 'v', 'e'] word then
    match ipa.getLast? with
    | none => some (ipa ++ [apos, 'v'])
    | some c => some (promote_i (elide_schwa ipa.dropLast) ++ [apos, c])
  else some ipa

/-- The k/s pair search of mark_letter_x: first index at or after `idx` whose
character is k immediately followed by s. -/
def find_ks (cs : List Char) (idx : Nat) : Option Nat :=
  if idx + 1 < cs.length then
    if cs[idx]? = some 'k' ∧ cs[idx + 1]? = some 's' then some idx
    else find_ks cs (idx + 1)
  else none
termination_by cs.length - idx

/-- One surface character of the mark_letter_x loop: an x consumes the next
unconsumed k/s pair, collapsing it to the ks-as-x marker. -/
def markXStep (cs_start : List Char × Nat) (ch : Char) : List Char × Nat :=
  if ch = 'x' ∨ ch = 'X' then
    match find_ks cs_start.1 cs_start.2 with
    | some pos => ((cs_start.1.set pos 'ˣ').eraseIdx (pos + 1), pos + 1)
    | none => cs_start
  else cs_start

/-- `mark_letter_x` from futhorc.rs. -/
def mark_letter_x (word : List Char) (ipa_input : List Char) : List Char :=
  if ∀ c ∈ word, ¬(c = 'x' ∨ c = 'X') then ipa_input
  else (word.foldl markXStep (ipa_input, 0)).1

/-- Steps 5 and 6 of the word transform: a word-final schwa-class vowel is
rewritten to a, then a word-final i to the short-front marker I. -/
def finalVowels (w1 : List Char) : List Char :=
  let w2 :=
    if w1.getLast? = some 'ə' ∨ w1.getLast? = some 'ʌ' ∨ w1.getLast? = some 'ɜ' then
      w1.dropLast ++ ['a']
    else w1
  if w2.getLast? = some 'i' then w2.dropLast ++ ['I'] else w2

/-- `handle_ipa_word` from futhorc.rs: the per-word phonetic rewrite chain
(single-letter exception, stress strip, final-vowel rewrites, suffix edits,
x marking).  `none` models the panicking unwraps inside the suffix edits. -/
def handle_ipa_word (ipaWords : List (List Char × Bool)) (ipa_word word : List Char) :
    Option (List (List Char × Bool)) :=
  if word.length = 1 ∧ word.head? ≠ some 'a' ∧ word.head? ≠ some 'i' then
    some (ipaWords ++ [(word, false)])
  else
    match suffix_edit word (finalVowels (remove_stress_markers ipa_word)) with
    | none => none
    | some w4 => some (ipaWords ++ [(mark_letter_x word w4, true)])

/-- `handle_punctuation` from futhorc.rs: reattach the remembered mark to the
last word and replace a leading literal space of the indexed whitespace run
by the suppressed-space marker X.  `none` models the last_mut unwrap and the
out-of-bounds indexing panics. -/
def handle_punctuation (ch : Char) (ipaWords : List (List Char × Bool))
    (whitespaces : List (List Char)) (index : Nat) :
    Option (List (List Char × Bool) × List (List Char)) :=
  if ch = ' ' then some (ipaWords, whitespaces)
  else
    match ipaWords.getLast? with
    | none => none
    | some (w, b) =>
      match whitespaces[index]? with
      | none => none
      | some run =>
        let run2 := match run with
          | ' ' :: rest => 'X' :: rest
          | _ => run
        some (ipaWords.dropLast ++ [(w ++ [ch], b)], whitespaces.set index run2)

/-- Rust Vec::insert, which panics (none) when the index exceeds the length. -/
def list_insert_at (l : List (List Char)) (i : Nat) (x : List Char) :
    Option (List (List Char)) :=
  if i ≤ l.length then some (l.take i ++ x :: l.drop i) else none

/-- The inner hyphen-segment loop of translate: each segment is resolved
independently (the full word is passed to handle_ipa_word, as in the
source), and a literal hyphen run is inserted before every segment except
the first. -/
def hyphenLoop (dict : List (List Char × List Char)) (word : List Char) (i : Nat) :
    List (List Char) → List (List Char × Bool) → List (List Char) → Nat → Bool →
      Option (List (List Char × Bool) × List (List Char) × Nat)
  | [], ipaWords, whitespaces, j, _ => some (ipaWords, whitespaces, j)
  | seg :: rest, ipaWords, whitespaces, j, skip =>
    let step1 : Option (List (List Char × Bool)) :=
      match List.lookup seg dict with
      | some ipa => handle_ipa_word ipaWords ipa word
      | none => some (ipaWords ++ [(seg, false)])
    match step1 with
    | none => none
    | some iw2 =>
      if skip then hyphenLoop dict word i rest iw2 whitespaces j false
      else
        match list_insert_at whitespaces (i + j + 1) ['-'] with
        | none => none
        | some ws2 => hyphenLoop dict word i rest iw2 ws2 (j + 1) false

/-- The main token loop of translate. -/
def translateLoop (dict : List (List Char × List Char)) :
    List (List Char) → Nat → Nat → List (List Char × Bool) → List (List Char) →
      Option (List (List Char × Bool) × List (List Char))
  | [], _, _, ipaWords, whitespaces => some (ipaWords, whitespaces)
  | tok :: rest, i, j, ipaWords, whitespaces =>
    let ch := (stripPunctChar tok).1
    let word := (stripPunctChar tok).2
    match List.lookup word dict with
    | some ipa_word =>
      match handle_ipa_word ipaWords ipa_word word with
      | none => none
      | some iw2 =>
        match handle_punctuation ch iw2 whitespaces (i + j + 1) with
        | none => none
        | some (iw3, ws3) => translateLoop dict rest (i + 1) j iw3 ws3
    | none =>
      if '-' ∈ word then
        match hyphenLoop dict word i (splitOn '-' word) ipaWords whitespaces j true with
        | none => none
        | some (iw2, ws2, j2) =>
          match handle_punctuation ch iw2 ws2 (i + j2 + 1) with
          | none => none
          | some (iw3, ws3) => translateLoop dict rest (i + 1) j2 iw3 ws3
      else
        match handle_punctuation ch (ipaWords ++ [(word, false)]) whitespaces (i + j + 1) with
        | none => none
        | some (iw3, ws3) => translateLoop dict rest (i + 1) j iw3 ws3

/-- The final assembly loop of translate: translated units go through the
disambiguator and both encoder passes, untranslated units are emitted
literally, and each following whitespace run is rune-mapped. -/
def assembleLoop (amb : AmbiguityMap) :
    List (List Char × Bool) → List (List Char) → Nat → List Char → Option (List Char)
  | [], _, _, acc => some acc
  | (word, flag) :: rest, whitespaces, i, acc =>
    let unit : Option (List Char) :=
      if flag then (translate_to_runic_2 (disambiguate word amb)).map translate_to_runic
      else some word
    match unit with
    | none => none
    | some u =>
      match whitespaces[i + 1]? with
      | none => none
      | some run => assembleLoop amb rest whitespaces (i + 1) (acc ++ u ++ translate_to_runic run)

/-- `EnglishToRunes::translate` from futhorc.rs, over an arbitrary dictionary
and ambiguity table (the struct fields).  `none` models any panic. -/
def translate (dict : List (List Char × List Char)) (amb : AmbiguityMap)
    (words : List Char) : Option (List Char) :=
  let lowered := words.map ascii_lower
  let whitespaces := parse_whitespace lowered
  match translateLoop dict (split_whitespace lowered) 0 0 [] whitespaces with
  | none => none
  | some (ipaWords, ws2) =>
    match ws2[0]? with
    | none => none
    | some w0 => assembleLoop amb ipaWords ws2 0 w0

/-- One line of the EnglishToRunes::default dictionary loader: outer none is
a construction-time panic (missing token), inner none is the XXXXX skip. -/
def parse_line (line : List Char) : Option (Option (List Char × List Char)) :=
  match split_ascii_ws line with
  | [] => none
  | w0 :: rest =>
    if w0 = ['X', 'X', 'X', 'X', 'X'] then some none
    else
      match rest with
      | [] => none
      | w1 :: _ => some (some (w0.dropLast, w1))

/-- The loader over all lines of the bundled word list: aborts (none) as soon
as one line is malformed. -/
def load_lines : List (List Char) → Option (List (List Char × List Char))
  | [] => some []
  | line :: rest =>
    match parse_line line with
    | none => none
    | some none => load_lines rest
    | some (some e) => (load_lines rest).map (fun d => e :: d)


/-- C4 (counterexample): the 'd-contraction and 've-contraction edits do not
elide the same symbols: on the phonetic string tɪd the 'd edit elides the ɪ
while the 've edit keeps it, so the portions before the appended apostrophe
differ. -/
theorem ve_edit_differs_from_d_edit :
    (suffix_edit ['a', Char.ofNat 39, 'd'] ['t', 'ɪ', 'd']).map
        (List.takeWhile (fun c => c != Char.ofNat 39)) ≠
      (suffix_edit ['a', Char.ofNat 39, 'v', 'e'] ['t', 'ɪ', 'd']).map
        (List.takeWhile (fun c => c != Char.ofNat 39)) := by
  decide

/-- C4 (amended): the 've-contraction edit applies the same elision/promotion
logic as the 'll-contraction edit (not the 'd edit): whenever the phonetic
string ends in l — the only case in which the 'll edit elides at all — the
two edits rewrite the phonetic string identically. -/
theorem ve_edit_matches_ll_edit (ipa : List Char) (h : ipa.getLast? = some 'l') :
    suffix_edit ['w', apos, 'v', 'e'] ipa = suffix_edit ['w', apos, 'l', 'l'] ipa := by
  have hve : suffix_edit ['w', apos, 'v', 'e'] ipa =
      (match ipa.getLast? with
       | none => some (ipa ++ [apos, 'v'])
       | some c => some (promote_i (elide_schwa ipa.dropLast) ++ [apos, c])) := rfl
  have hll : suffix_edit ['w', apos, 'l', 'l'] ipa =
      (match ipa.getLast? with
       | some 'l' => some (promote_i (elide_schwa ipa.dropLast) ++ [apos, 'l'])
       | _ => some (ipa ++ [apos, 'l'])) := rfl
  rw [hve, hll, h]
  rfl

/-- Witness for the amended C4 on the phonetic string həl: both edits elide
the schwa and append the apostrophe and l. -/
theorem ve_edit_matches_ll_edit_witness :
    suffix_edit ['w', apos, 'v', 'e'] ['h', 'ə', 'l'] =
      suffix_edit ['w', apos, 'l', 'l'] ['h', 'ə', 'l'] :=
  ve_edit_matches_ll_edit ['h', 'ə', 'l'] (by decide)

theorem replace2_cons_ne (a b : Char) (r : List Char) (x : Char) (s : List Char)
    (hx : x ≠ a) :
    replace2 a b r (x :: s) = x :: replace2 a b r s := by
  cases s with
  | nil => rfl
  | cons y s2 =>
    show (if x = a ∧ y = b then _ else _) = _
    rw [if_neg (by rintro ⟨h1, _⟩; exact hx h1)]

theorem translate_to_runic_cons_single (c g : Char) (rest : List Char)
    (hg : runeOf c = [g]) (h1 : g ≠ 'ᛋ') (h2 : g ≠ 'ᚳ') :
    translate_to_runic (c :: rest) = g :: translate_to_runic rest := by
  unfold translate_to_runic
  rw [show runesOf (c :: rest) = runeOf c ++ runesOf rest from rfl, hg]
  rw [show (([g] ++ runesOf rest) : List Char) = g :: runesOf rest from rfl]
  rw [replace2_cons_ne _ _ _ _ _ h1, replace2_cons_ne _ _ _ _ _ h2]

/-- C5: when a token had a trailing punctuation mark stripped, reattaching it
marks the first literal space of the following whitespace run with the
suppressed-space marker X, and the rune mapping renders that marker as a
literal space — no interword separator rune is inserted in its place —
whereas an unmarked leading space would have become the separator rune. -/
theorem punctuation_suppresses_space (ch : Char) (ipaWords : List (List Char × Bool))
    (w : List Char) (b : Bool) (whitespaces : List (List Char)) (index : Nat)
    (rest : List Char)
    (hch : ch ≠ ' ')
    (hlast : ipaWords.getLast? = some (w, b))
    (hrun : whitespaces[index]? = some (' ' :: rest)) :
    handle_punctuation ch ipaWords whitespaces index =
      some (ipaWords.dropLast ++ [(w ++ [ch], b)], whitespaces.set index ('X' :: rest)) ∧
    translate_to_runic ('X' :: rest) = ' ' :: translate_to_runic rest ∧
    translate_to_runic (' ' :: rest) = '᛫' :: translate_to_runic rest := by
  refine ⟨?_, ?_, ?_⟩
  · unfold handle_punctuation
    rw [if_neg hch, hlast, hrun]
    rfl
  · exact translate_to_runic_cons_single 'X' ' ' rest rfl (by decide) (by decide)
  · exact translate_to_runic_cons_single ' ' '᛫' rest rfl (by decide) (by decide)

/-- Witness for C5: reattaching a comma to the word before a two-character
whitespace run suppresses the run's first space. -/
theorem punctuation_suppresses_space_witness :
    handle_punctuation ',' [(['a'], true)] [[], [' ', '\n']] 1 =
      some ([(['a', ','], true)], [[], ['X', '\n']]) ∧
    translate_to_runic ['X', '\n'] = [' ', '\n'] ∧
    translate_to_runic [' ', '\n'] = ['᛫', '\n'] := by
  have h := punctuation_suppresses_space ',' [(['a'], true)] ['a'] true [[], [' ', '\n']] 1
    ['\n'] (by decide) (by decide) (by decide)
  refine ⟨?_, ?_, ?_⟩
  · rw [h.1]; decide
  · rw [h.2.1]; decide
  · rw [h.2.2]; decide

theorem splitAux_mem_ne_nil (p : Char → Bool) (l : List Char) (acc : List Char) :
    ∀ t ∈ splitAux p l acc, t ≠ [] := by
  induction l generalizing acc with
  | nil =>
    intro t ht
    by_cases ha : acc = []
    · rw [show splitAux p [] acc = if acc = [] then [] else [acc.reverse] from rfl,
        if_pos ha] at ht
      simp at ht
    · rw [show splitAux p [] acc = if acc = [] then [] else [acc.reverse] from rfl,
        if_neg ha] at ht
      simp only [List.mem_singleton] at ht
      rw [ht]
      simpa using ha
  | cons c restl ih =>
    intro t ht
    rw [show splitAux p (c :: restl) acc =
      (if p c then
        (if acc = [] then splitAux p restl [] else acc.reverse :: splitAux p restl [])
       else splitAux p restl (c :: acc)) from rfl] at ht
    by_cases hp : p c
    · rw [if_pos hp] at ht
      by_cases ha : acc = []
      · rw [if_pos ha] at ht
        exact ih [] t ht
      · rw [if_neg ha] at ht
        rcases List.mem_cons.mp ht with rfl | hm
        · simpa using ha
        · exact ih [] t hm
    · rw [if_neg hp] at ht
      exact ih (c :: acc) t ht

theorem parse_line_value_ne_nil (line : List Char) (e : List Char × List Char)
    (h : parse_line line = some (some e)) : e.2 ≠ [] := by
  unfold parse_line at h
  split at h
  next => exact absurd h (by simp)
  next w0 rest heq =>
    split at h
    next => simp at h
    next hx =>
      split at h
      next => exact absurd h (by simp)
      next w1 rest2 =>
        simp only [Option.some_inj] at h
        have hw1 : w1 ∈ split_ascii_ws line := by
          rw [heq]
          simp
        have hne := splitAux_mem_ne_nil ascii_ws line [] w1 hw1
        rw [← h]
        exact hne

theorem load_lines_values_ne_nil (lines : List (List Char))
    (d : List (List Char × List Char)) (h : load_lines lines = some d) :
    ∀ e ∈ d, e.2 ≠ [] := by
  induction lines generalizing d with
  | nil =>
    simp only [load_lines, Option.some_inj] at h
    rw [← h]
    simp
  | cons line rest ih =>
    rw [show load_lines (line :: rest) =
      (match parse_line line with
       | none => none
       | some none => load_lines rest
       | some (some e) => (load_lines rest).map (fun d => e :: d)) from rfl] at h
    split at h
    next => exact absurd h (by simp)
    next => exact ih d h
    next e heq =>
      rcases hrest : load_lines rest with _ | d2
      · rw [hrest] at h
        exact absurd h (by simp)
      · rw [hrest] at h
        simp only [Option.map_some', Option.some_inj] at h
        rw [← h]
        intro e2 he2
        rcases List.mem_cons.mp he2 with rfl | hm
        · exact parse_line_value_ne_nil line e2 heq
        · exact ih d2 hrest e2 hm

theorem suffix_edit_isSome (word ipa : List Char) (h : ipa ≠ []) :
    (suffix_edit word ipa).isSome = true := by
  rcases hg : ipa.getLast? with _ | c
  · rw [List.getLast?_eq_none_iff] at hg
    exact absurd hg h
  · unfold suffix_edit
    split_ifs <;> simp [hg] <;> split <;> simp

theorem finalVowels_ne_nil (w1 : List Char) (h : w1 ≠ []) : finalVowels w1 ≠ [] := by
  unfold finalVowels
  dsimp only
  split
  · simp
  · split
    · simp
    · exact h

theorem handle_ipa_word_isSome (ipaWords : List (List Char × Bool))
    (ipa_word word : List Char) (h : remove_stress_markers ipa_word ≠ []) :
    (handle_ipa_word ipaWords ipa_word word).isSome = true := by
  unfold handle_ipa_word
  by_cases h1 : word.length = 1 ∧ word.head? ≠ some 'a' ∧ word.head? ≠ some 'i'
  · rw [if_pos h1]
    rfl
  · rw [if_neg h1]
    have hne := finalVowels_ne_nil (remove_stress_markers ipa_word) h
    rcases hs : suffix_edit word (finalVowels (remove_stress_markers ipa_word)) with _ | w4
    · have hsome := suffix_edit_isSome word _ hne
      rw [hs] at hsome
      simp at hsome
    · rfl

/-- C6: malformed pre-loaded dictionary data fails at construction time, not
during translate: a word-list line whose transcription token is missing (or
an empty line) aborts the loader; every dictionary a successful load
produces has only non-empty transcriptions; and the character-removal steps
of handle_ipa_word never fail on a transcription that is non-empty after
stress stripping, so the zero-symbol panic cannot occur per-word at
translate time for loaded data. -/
theorem dictionary_malformed_aborts_at_construction :
    (∀ line w0, split_ascii_ws line = [w0] → w0 ≠ ['X', 'X', 'X', 'X', 'X'] →
      parse_line line = none) ∧
    (∀ line, split_ascii_ws line = [] → parse_line line = none) ∧
    (∀ lines d, load_lines lines = some d → ∀ e ∈ d, e.2 ≠ []) ∧
    (∀ ipaWords ipa_word word, remove_stress_markers ipa_word ≠ [] →
      (handle_ipa_word ipaWords ipa_word word).isSome = true) := by
  refine ⟨?_, ?_, load_lines_values_ne_nil, handle_ipa_word_isSome⟩
  · intro line w0 hs hx
    unfold parse_line
    rw [hs]
    simp only [if_neg hx]
  · intro line hs
    unfold parse_line
    rw [hs]

/-- Witness for C6: a one-token line aborts the loader, the empty line aborts
the loader, a well-formed load yields a non-empty transcription, and
handle_ipa_word succeeds on it. -/
theorem dictionary_malformed_aborts_at_construction_witness :
    parse_line ['a', 'b'] = none ∧
    parse_line [] = none ∧
    ((['a'], ['c']) : List Char × List Char).2 ≠ [] ∧
    (handle_ipa_word [] ['c'] ['a']).isSome = true := by
  refine ⟨?_, ?_, ?_, ?_⟩
  · exact dictionary_malformed_aborts_at_construction.1 ['a', 'b'] ['a', 'b']
      (by decide) (by decide)
  · exact dictionary_malformed_aborts_at_construction.2.1 [] (by decide)
  · exact dictionary_malformed_aborts_at_construction.2.2.1 [['a', 'b', ' ', 'c']]
      [(['a'], ['c'])] (by decide) (['a'], ['c']) (by decide)
  · exact dictionary_malformed_aborts_at_construction.2.2.2 [] ['c'] ['a'] (by decide)


theorem parseWsAux_no_ws_false (l : List Char) (s : List Char)
    (hws : ∀ c ∈ l, rust_is_whitespace c = false) :
    parseWsAux l false s = [[]] := by
  induction l generalizing s with
  | nil => rfl
  | cons c rest ih =>
    show (if rust_is_whitespace c then parseWsAux rest true (s ++ [c])
      else parseWsAux rest false s) = [[]]
    rw [if_neg (by rw [hws c (by simp)]; simp)]
    exact ih s (fun c2 hc2 => hws c2 (by simp [hc2]))

theorem parse_whitespace_no_ws (w : List Char) (hne : w ≠ [])
    (hws : ∀ c ∈ w, rust_is_whitespace c = false) :
    parse_whitespace w = [[], []] := by
  cases w with
  | nil => exact absurd rfl hne
  | cons c rest =>
    show (if rust_is_whitespace c then parseWsAux rest true ([] ++ [c])
      else [] :: parseWsAux rest false []) = [[], []]
    rw [if_neg (by rw [hws c (by simp)]; simp)]
    rw [parseWsAux_no_ws_false rest [] (fun c2 hc2 => hws c2 (by simp [hc2]))]

theorem splitAux_no_ws (p : Char → Bool) (l : List Char) (acc : List Char)
    (hws : ∀ c ∈ l, p c = false) (hne : acc ≠ [] ∨ l ≠ []) :
    splitAux p l acc = [acc.reverse ++ l] := by
  induction l generalizing acc with
  | nil =>
    rcases hne with ha | hl
    · show (if acc = [] then [] else [acc.reverse]) = _
      rw [if_neg ha]
      simp
    · exact absurd rfl hl
  | cons c rest ih =>
    show (if p c then _ else splitAux p rest (c :: acc)) = _
    rw [if_neg (by rw [hws c (by simp)]; simp)]
    rw [ih (c :: acc) (fun c2 hc2 => hws c2 (by simp [hc2])) (Or.inl (by simp))]
    simp

theorem split_whitespace_no_ws (w : List Char) (hne : w ≠ [])
    (hws : ∀ c ∈ w, rust_is_whitespace c = false) :
    split_whitespace w = [w] := by
  unfold split_whitespace
  rw [splitAux_no_ws rust_is_whitespace w [] hws (Or.inr hne)]
  rfl

theorem dropLast_append_of_getLast? (w : List Char) (c : Char) (hg : w.getLast? = some c) :
    w.dropLast ++ [c] = w := by
  have hne : w ≠ [] := by
    intro hnil
    rw [hnil] at hg
    simp at hg
  have hgl := List.getLast?_eq_getLast w hne
  rw [hgl] at hg
  simp only [Option.some_inj] at hg
  rw [← hg]
  exact List.dropLast_append_getLast hne

/-- C3 (counterexample): translate ASCII-lowercases its input before any
lookup, so a dictionary-absent hyphen-free word containing an uppercase
letter does not pass through unchanged. -/
theorem translate_changes_uppercase_word :
    List.lookup (stripPunctChar ['Z']).2 ([] : List (List Char × List Char)) = none ∧
    '-' ∉ ['Z'] ∧
    translate [] [] ['Z'] ≠ some ['Z'] ∧
    translate [] [] ['Z'] = some ['z'] := by
  decide

/-- C3 (amended): for every dictionary and ambiguity table, a word (no
whitespace) that is unchanged by ASCII lowercasing, contains no hyphen, and
whose punctuation-stripped form is absent from the dictionary passes through
translate entirely untranslated: translate returns it verbatim. -/
theorem translate_untranslated_passthrough (dict : List (List Char × List Char))
    (amb : AmbiguityMap) (w : List Char)
    (hws : ∀ c ∈ w, rust_is_whitespace c = false)
    (hup : ∀ c ∈ w, ascii_lower c = c)
    (hhy : '-' ∉ w)
    (habs : List.lookup (stripPunctChar w).2 dict = none) :
    translate dict amb w = some w := by
  have hlow : w.map ascii_lower = w := by
    rw [show w.map ascii_lower = w.map id from List.map_congr_left hup, List.map_id]
  by_cases hne : w = []
  · subst hne
    rfl
  · have hparse := parse_whitespace_no_ws w hne hws
    have hsplit := split_whitespace_no_ws w hne hws
    have hrunic_nil : translate_to_runic [] = [] := rfl
    rcases hg : w.getLast? with _ | c
    · rw [List.getLast?_eq_none_iff] at hg
      exact absurd hg hne
    · by_cases hpunct : c = ',' ∨ c = ':' ∨ c = ';' ∨ c = '.' ∨ c = '!' ∨ c = '?'
      · have hsp : stripPunctChar w = (c, w.dropLast) := by
          unfold stripPunctChar
          rw [hg]
          show (if c = ',' ∨ c = ':' ∨ c = ';' ∨ c = '.' ∨ c = '!' ∨ c = '?'
            then (c, w.dropLast) else (' ', w)) = _
          rw [if_pos hpunct]
        have hhy2 : '-' ∉ w.dropLast :=
          fun hmem => hhy ((List.dropLast_sublist w).subset hmem)
        have habs2 : List.lookup w.dropLast dict = none := by
          rw [hsp] at habs
          exact habs
        have hcs : ¬ c = ' ' := by
          rcases hpunct with rfl | rfl | rfl | rfl | rfl | rfl <;> decide
        have hdl : w.dropLast ++ [c] = w := dropLast_append_of_getLast? w c hg
        simp only [translate, hlow, hparse, hsplit]
        simp only [translateLoop, hsp, habs2]
        rw [if_neg hhy2]
        simp only [handle_punctuation, if_neg hcs, List.nil_append,
          List.getLast?_singleton]
        simp [translateLoop, assembleLoop, hdl, hrunic_nil]
      · have hsp : stripPunctChar w = (' ', w) := by
          unfold stripPunctChar
          rw [hg]
          show (if c = ',' ∨ c = ':' ∨ c = ';' ∨ c = '.' ∨ c = '!' ∨ c = '?'
            then (c, w.dropLast) else (' ', w)) = _
          rw [if_neg hpunct]
        have habs2 : List.lookup w dict = none := by
          rw [hsp] at habs
          exact habs
        simp only [translate, hlow, hparse, hsplit]
        simp only [translateLoop, hsp, habs2]
        rw [if_neg hhy]
        simp only [handle_punctuation, if_pos rfl]
        simp [translateLoop, assembleLoop, hrunic_nil]

/-- Witness for the amended C3: the word qq, absent from the empty dictionary,
passes through unchanged, as does qq with an attached comma. -/
theorem translate_untranslated_passthrough_witness :
    translate [] [] ['q', 'q'] = some ['q', 'q'] ∧
    translate [] [] ['q', 'q', ','] = some ['q', 'q', ','] := by
  constructor
  · exact translate_untranslated_passthrough [] [] ['q', 'q'] (by decide) (by decide)
      (by decide) (by decide)
  · exact translate_untranslated_passthrough [] [] ['q', 'q', ','] (by decide) (by decide)
      (by decide) (by decide)

end Futhorc
